import Mathlib

/-!
# Verification of the enfyra metadata-driven query/relation engine

Shallow embedding of the relation transformer, cascade context, many-to-many
sync, hook pipeline, pagination, meta-count computation and field expansion of
`src/infrastructure/knex/knex.service.ts`,
`src/infrastructure/knex/hooks/hook-registry.ts` and
`src/infrastructure/query-builder/query-builder.service.ts`, with theorems
settling the specification claims about them.
-/

namespace Enfyra

/-- A JavaScript value as far as the relation transformer inspects it:
`null`, numbers, strings, booleans, plain objects (of which the code only
ever reads the `id` property — `idField = none` models `id === undefined`),
and arrays (whose elements the FK transform never inspects; for the cascade
capture we carry the id list). -/
inductive Value where
  | null : Value
  | num (n : Int) : Value
  | str (s : String) : Value
  | bool (b : Bool) : Value
  | obj (idField : Option Value) : Value
  | arr (ids : List Int) : Value

/-- A record (JS object) as a finite partial map from key to value;
`none` models an absent key (`key in obj` false / `undefined`). -/
def Rec : Type := String → Option Value

/-- Point update of a record: `rset r k v` is `r` with key `k` bound to `v`
(`v = none` models `delete r[k]`). -/
def rset (r : Rec) (k : String) (v : Option Value) : Rec :=
  fun k' => if k' = k then v else r k'

/-- Relation cardinalities, `RelationMeta.type` in the source. -/
inductive RelType where
  | manyToOne | oneToOne | oneToMany | manyToMany
  deriving DecidableEq, Repr

/-- `RelationMeta` from the metadata data model (§3): propertyName, type,
target table, FK column for *-to-one, junction identity for many-to-many. -/
structure RelationMeta where
  propertyName : String
  rtype : RelType
  targetTableName : String := ""
  foreignKeyColumn : Option String := none
  junctionTableName : Option String := none
  junctionSourceColumn : Option String := none
  junctionTargetColumn : Option String := none
  deriving DecidableEq, Repr

/-- `ColumnMeta` (only the name matters to the claims below). -/
structure ColumnMeta where
  name : String
  deriving DecidableEq, Repr

/-- `TableMetadata`: name, columns, relations. -/
structure TableMeta where
  name : String
  columns : List ColumnMeta := []
  relations : List RelationMeta := []
  deriving DecidableEq, Repr

/-- The FK column of a *-to-one relation:
`relation.foreignKeyColumn || propertyName + "Id"` (knex.service.ts:297). -/
def fkCol (rel : RelationMeta) : String :=
  rel.foreignKeyColumn.getD (rel.propertyName ++ "Id")

/-- `['many-to-one','one-to-one'].includes(relation.type)`. -/
def isToOne : RelType → Bool
  | .manyToOne => true
  | .oneToOne => true
  | _ => false

/-- `['one-to-many','many-to-many'].includes(relation.type)`. -/
def isToMany : RelType → Bool
  | .oneToMany => true
  | .manyToMany => true
  | _ => false

/-- One iteration of the first loop of `transformRelationsToFK`
(knex.service.ts:293-315): for a *-to-one relation present as a key,
`null` sets the FK column to null, an object with a defined `id` sets it to
that id, a bare number/string is copied, anything else (boolean, array,
object without `id`) only deletes the relation key; in every case the
relation key is deleted. -/
def stepToOne (rel : RelationMeta) (r : Rec) : Rec :=
  if isToOne rel.rtype then
    match r rel.propertyName with
    | none => r
    | some v =>
      match v with
      | .null => rset (rset r (fkCol rel) (some .null)) rel.propertyName none
      | .obj (some idv) => rset (rset r (fkCol rel) (some idv)) rel.propertyName none
      | .obj none => rset r rel.propertyName none
      | .num n => rset (rset r (fkCol rel) (some (.num n))) rel.propertyName none
      | .str s => rset (rset r (fkCol rel) (some (.str s))) rel.propertyName none
      | .bool _ => rset r rel.propertyName none
      | .arr _ => rset r rel.propertyName none
  else r

/-- One iteration of the second loop of `transformRelationsToFK`
(knex.service.ts:317-322): delete every one-to-many / many-to-many
relation key. -/
def stepToMany (rel : RelationMeta) (r : Rec) : Rec :=
  if isToMany rel.rtype then rset r rel.propertyName none else r

/-- `transformRelationsToFK(tableName, data)` (knex.service.ts:282-325),
as a function of the table's relation list: the first loop over the
relations rewrites *-to-one relation keys into FK columns, the second
deletes to-many relation keys. -/
def foldTO (rels : List RelationMeta) (r : Rec) : Rec :=
  rels.foldl (fun acc rel => stepToOne rel acc) r

def foldTM (rels : List RelationMeta) (r : Rec) : Rec :=
  rels.foldl (fun acc rel => stepToMany rel acc) r

def transformRelationsToFK (rels : List RelationMeta) (r : Rec) : Rec :=
  foldTM rels (foldTO rels r)

/-- The value the FK column ends up with, as a function of the relation
value and the FK column's prior value: `null` and primitives are written
through, `{id: X}` contributes `X`, every other shape leaves the FK column
untouched (the code only deletes the relation key then). -/
def fkResult : Option Value → Option Value → Option Value
  | some .null, _ => some .null
  | some (.obj (some idv)), _ => some idv
  | some (.num n), _ => some (.num n)
  | some (.str s), _ => some (.str s)
  | some (.obj none), old => old
  | some (.bool _), old => old
  | some (.arr _), old => old
  | none, old => old

theorem rset_self (r : Rec) (k : String) (v : Option Value) : rset r k v k = v := by
  simp [rset]

theorem rset_other (r : Rec) (k k' : String) (v : Option Value) (h : k' ≠ k) :
    rset r k v k' = r k' := by
  simp [rset, h]

theorem stepToOne_frame (rel : RelationMeta) (r : Rec) (k : String)
    (h1 : k ≠ rel.propertyName) (h2 : k ≠ fkCol rel) :
    stepToOne rel r k = r k := by
  unfold stepToOne
  split
  · cases hv : r rel.propertyName with
    | none => rfl
    | some v =>
      cases v <;> simp only [rset, if_neg h1, if_neg h2] <;>
        first
        | rfl
        | (rename_i o; cases o <;> simp [rset, if_neg h1, if_neg h2])
  · rfl

theorem stepToOne_notToOne (rel : RelationMeta) (r : Rec) (h : isToOne rel.rtype = false) :
    stepToOne rel r = r := by
  unfold stepToOne
  simp [h]

theorem stepToOne_self (rel : RelationMeta) (r : Rec) (h : isToOne rel.rtype = true) :
    stepToOne rel r rel.propertyName = none := by
  unfold stepToOne
  rw [if_pos h]
  cases hv : r rel.propertyName with
  | none => exact hv
  | some v =>
    cases v with
    | obj o => cases o <;> simp [rset_self]
    | _ => simp [rset_self]

theorem stepToOne_fk (rel : RelationMeta) (r : Rec) (h : isToOne rel.rtype = true)
    (hne : fkCol rel ≠ rel.propertyName) :
    stepToOne rel r (fkCol rel) = fkResult (r rel.propertyName) (r (fkCol rel)) := by
  unfold stepToOne
  rw [if_pos h]
  cases hv : r rel.propertyName with
  | none => simp [fkResult]
  | some v =>
    cases v with
    | obj o =>
      cases o <;> simp [fkResult, rset, if_neg hne]
    | _ => simp [fkResult, rset, if_neg hne]

theorem stepToMany_frame (rel : RelationMeta) (r : Rec) (k : String)
    (h : k ≠ rel.propertyName) :
    stepToMany rel r k = r k := by
  unfold stepToMany
  split
  · exact rset_other r rel.propertyName k none h
  · rfl

theorem stepToMany_self (rel : RelationMeta) (r : Rec) (h : isToMany rel.rtype = true) :
    stepToMany rel r rel.propertyName = none := by
  unfold stepToMany
  rw [if_pos h, rset_self]

theorem stepToMany_none (rel : RelationMeta) (r : Rec) (k : String) (h : r k = none) :
    stepToMany rel r k = none := by
  unfold stepToMany
  split
  · by_cases hk : k = rel.propertyName
    · subst hk; rw [rset_self]
    · rw [rset_other r rel.propertyName k none hk]; exact h
  · exact h

theorem foldTO_frame (rels : List RelationMeta) (r : Rec) (k : String)
    (h : ∀ rel ∈ rels, k ≠ rel.propertyName ∧ k ≠ fkCol rel) :
    foldTO rels r k = r k := by
  induction rels generalizing r with
  | nil => rfl
  | cons rel rest ih =>
    have hrel := h rel (List.mem_cons_self rel rest)
    have hrest : ∀ rel' ∈ rest, k ≠ rel'.propertyName ∧ k ≠ fkCol rel' :=
      fun rel' hm => h rel' (List.mem_cons_of_mem rel hm)
    calc foldTO (rel :: rest) r k
        = foldTO rest (stepToOne rel r) k := rfl
      _ = stepToOne rel r k := ih (stepToOne rel r) hrest
      _ = r k := stepToOne_frame rel r k hrel.1 hrel.2

theorem foldTM_frame (rels : List RelationMeta) (r : Rec) (k : String)
    (h : ∀ rel ∈ rels, k ≠ rel.propertyName) :
    foldTM rels r k = r k := by
  induction rels generalizing r with
  | nil => rfl
  | cons rel rest ih =>
    calc foldTM (rel :: rest) r k
        = foldTM rest (stepToMany rel r) k := rfl
      _ = stepToMany rel r k :=
          ih (stepToMany rel r) (fun rel' hm => h rel' (List.mem_cons_of_mem rel hm))
      _ = r k := stepToMany_frame rel r k (h rel (List.mem_cons_self rel rest))

theorem foldTM_none (rels : List RelationMeta) (r : Rec) (k : String) (h : r k = none) :
    foldTM rels r k = none := by
  induction rels generalizing r with
  | nil => exact h
  | cons rel rest ih =>
    exact ih (stepToMany rel r) (stepToMany_none rel r k h)

theorem foldTO_append (l1 l2 : List RelationMeta) (r : Rec) :
    foldTO (l1 ++ l2) r = foldTO l2 (foldTO l1 r) := by
  simp [foldTO, List.foldl_append]

theorem foldTM_append (l1 l2 : List RelationMeta) (r : Rec) :
    foldTM (l1 ++ l2) r = foldTM l2 (foldTM l1 r) := by
  simp [foldTM, List.foldl_append]

/-- Splitting a Nodup list at a known member. -/
theorem nodup_split {α : Type} {l1 l2 : List α} {x : α}
    (h : (l1 ++ x :: l2).Nodup) : x ∉ l1 ∧ x ∉ l2 := by
  rw [List.nodup_append] at h
  obtain ⟨_, h2, hd⟩ := h
  rw [List.nodup_cons] at h2
  exact ⟨fun hx => hd hx (List.mem_cons_self x l2), h2.1⟩

theorem isToOne_not_isToMany {t : RelType} (h : isToOne t = true) :
    isToMany t = false := by
  cases t <;> simp_all [isToOne, isToMany]

theorem isToOne_or_isToMany (t : RelType) :
    isToOne t = true ∨ isToMany t = true := by
  cases t <;> simp [isToOne, isToMany]

/-- C1: for every table metadata whose relation property names and FK
column names do not collide, `transformRelationsToFK` (a) removes every
relation key (both *-to-one keys, which it rewrites, and to-many keys,
which it drops without adding any column), (b) sets each *-to-one FK
column to `value.id` for `{id: X}`, to `null` for `null`, to the bare
value for a number/string, and leaves it untouched otherwise, and
(c) leaves every field that is neither a relation key nor an FK column
unchanged. -/
theorem transformRelationsToFK_spec (rels : List RelationMeta) (r : Rec)
    (hpn : (rels.map (·.propertyName)).Nodup)
    (hfk : (rels.map fkCol).Nodup)
    (hcross : ∀ r1 ∈ rels, ∀ r2 ∈ rels, r1.propertyName ≠ fkCol r2) :
    (∀ rel ∈ rels, transformRelationsToFK rels r rel.propertyName = none) ∧
    (∀ rel ∈ rels, isToOne rel.rtype = true →
      transformRelationsToFK rels r (fkCol rel) =
        fkResult (r rel.propertyName) (r (fkCol rel))) ∧
    (∀ k : String, (∀ rel ∈ rels, k ≠ rel.propertyName ∧ k ≠ fkCol rel) →
      transformRelationsToFK rels r k = r k) := by
  refine ⟨?_, ?_, ?_⟩
  · -- (a) every relation key ends up absent
    intro rel hmem
    obtain ⟨pre, post, hsplit⟩ := List.append_of_mem hmem
    have hpn' : rel.propertyName ∉ pre.map (·.propertyName) ∧
        rel.propertyName ∉ post.map (·.propertyName) := by
      have := hpn
      rw [hsplit, List.map_append, List.map_cons] at this
      exact nodup_split this
    rcases isToOne_or_isToMany rel.rtype with hto | htm
    · -- *-to-one: cleared by the first loop, stays absent through the second
      have h1 : foldTO rels r rel.propertyName = none := by
        rw [hsplit, foldTO_append]
        have hstep : stepToOne rel (foldTO pre r) rel.propertyName = none :=
          stepToOne_self rel (foldTO pre r) hto
        have hpost : ∀ rel' ∈ post,
            rel.propertyName ≠ rel'.propertyName ∧ rel.propertyName ≠ fkCol rel' := by
          intro rel' hm
          constructor
          · intro he
            exact hpn'.2 (he ▸ List.mem_map_of_mem (·.propertyName) hm)
          · exact hcross rel hmem rel' (hsplit ▸ List.mem_append_right pre
              (List.mem_cons_of_mem rel hm))
        show foldTO post (foldTO [rel] (foldTO pre r)) rel.propertyName = none
        have : foldTO [rel] (foldTO pre r) = stepToOne rel (foldTO pre r) := rfl
        rw [this, foldTO_frame post _ _ hpost, hstep]
      exact foldTM_none rels (foldTO rels r) rel.propertyName h1
    · -- to-many: cleared by the second loop
      have key : ∀ s : Rec, foldTM rels s rel.propertyName = none := by
        intro s
        rw [hsplit, foldTM_append]
        show foldTM post (stepToMany rel (foldTM pre s)) rel.propertyName = none
        exact foldTM_none post _ _ (stepToMany_self rel _ htm)
      exact key (foldTO rels r)
  · -- (b) FK column value for *-to-one relations
    intro rel hmem hto
    obtain ⟨pre, post, hsplit⟩ := List.append_of_mem hmem
    have hpnsplit : rel.propertyName ∉ pre.map (·.propertyName) ∧
        rel.propertyName ∉ post.map (·.propertyName) := by
      have := hpn
      rw [hsplit, List.map_append, List.map_cons] at this
      exact nodup_split this
    have hfksplit : fkCol rel ∉ pre.map fkCol ∧ fkCol rel ∉ post.map fkCol := by
      have := hfk
      rw [hsplit, List.map_append, List.map_cons] at this
      exact nodup_split this
    have hpfk : fkCol rel ≠ rel.propertyName :=
      fun he => hcross rel hmem rel hmem he.symm
    -- the FK column is untouched by every step other than rel's own
    have hprefk : ∀ rel' ∈ pre, fkCol rel ≠ rel'.propertyName ∧ fkCol rel ≠ fkCol rel' := by
      intro rel' hm
      have hm' : rel' ∈ rels := hsplit ▸ List.mem_append_left _ hm
      refine ⟨fun he => hcross rel' hm' rel hmem he.symm, fun he => ?_⟩
      exact hfksplit.1 (he ▸ List.mem_map_of_mem fkCol hm)
    have hprep : ∀ rel' ∈ pre, rel.propertyName ≠ rel'.propertyName ∧
        rel.propertyName ≠ fkCol rel' := by
      intro rel' hm
      have hm' : rel' ∈ rels := hsplit ▸ List.mem_append_left _ hm
      refine ⟨fun he => hpnsplit.1 (he ▸ List.mem_map_of_mem (·.propertyName) hm), ?_⟩
      exact hcross rel hmem rel' hm'
    have hpostfk : ∀ rel' ∈ post, fkCol rel ≠ rel'.propertyName ∧ fkCol rel ≠ fkCol rel' := by
      intro rel' hm
      have hm' : rel' ∈ rels := hsplit ▸ List.mem_append_right pre
        (List.mem_cons_of_mem rel hm)
      refine ⟨fun he => hcross rel' hm' rel hmem he.symm, fun he => ?_⟩
      exact hfksplit.2 (he ▸ List.mem_map_of_mem fkCol hm)
    have hallfk : ∀ rel' ∈ rels, fkCol rel ≠ rel'.propertyName := by
      intro rel' hm' he
      exact hcross rel' hm' rel hmem he.symm
    have h1 : foldTO rels r (fkCol rel) = fkResult (r rel.propertyName) (r (fkCol rel)) := by
      rw [hsplit, foldTO_append]
      show foldTO post (foldTO [rel] (foldTO pre r)) (fkCol rel) = _
      have hone : foldTO [rel] (foldTO pre r) = stepToOne rel (foldTO pre r) := rfl
      rw [hone, foldTO_frame post _ _ hpostfk,
        stepToOne_fk rel (foldTO pre r) hto hpfk,
        foldTO_frame pre r _ hprefk, foldTO_frame pre r _ hprep]
    calc transformRelationsToFK rels r (fkCol rel)
        = foldTM rels (foldTO rels r) (fkCol rel) := rfl
      _ = foldTO rels r (fkCol rel) := foldTM_frame rels _ _ hallfk
      _ = fkResult (r rel.propertyName) (r (fkCol rel)) := h1
  · -- (c) frame: untouched keys keep their value
    intro k hk
    calc transformRelationsToFK rels r k
        = foldTM rels (foldTO rels r) k := rfl
      _ = foldTO rels r k := foldTM_frame rels _ k (fun rel hm => (hk rel hm).1)
      _ = r k := foldTO_frame rels r k hk

/-- Scenario-A relation: many-to-one `author` with FK column `authorId`. -/
def authorRel : RelationMeta :=
  { propertyName := "author", rtype := .manyToOne, targetTableName := "user",
    foreignKeyColumn := some "authorId" }

/-- Scenario-A relation: many-to-many `tags` through `article_tags`. -/
def tagsRel : RelationMeta :=
  { propertyName := "tags", rtype := .manyToMany, targetTableName := "tag",
    junctionTableName := some "article_tags",
    junctionSourceColumn := some "articleId",
    junctionTargetColumn := some "tagId" }

/-- The Scenario-A metadata: `article` with many-to-one `author` (FK column
`authorId`) and many-to-many `tags` through `article_tags`. -/
def articleRels : List RelationMeta := [authorRel, tagsRel]

/-- The Scenario-A payload `{title:"Hello", author:{id:5}, tags:[1,2]}`. -/
def articleRec : Rec := fun k =>
  if k = "title" then some (.str "Hello")
  else if k = "author" then some (.obj (some (.num 5)))
  else if k = "tags" then some (.arr [1, 2])
  else none

/-- Witness for C1 at Scenario A: the transform yields `authorId = 5`, no
`author` key, no `tags` key (and no column added for it), `title` intact. -/
theorem transformRelationsToFK_spec_witness :
    transformRelationsToFK articleRels articleRec "author" = none ∧
    transformRelationsToFK articleRels articleRec "tags" = none ∧
    transformRelationsToFK articleRels articleRec "authorId" = some (.num 5) ∧
    transformRelationsToFK articleRels articleRec "title" = some (.str "Hello") := by
  have h := transformRelationsToFK_spec articleRels articleRec
    (by decide) (by decide) (by decide)
  refine ⟨?_, ?_, ?_, ?_⟩
  · exact h.1 authorRel (by decide)
  · exact h.1 tagsRel (by decide)
  · exact (h.2.1 authorRel (by decide) rfl).trans rfl
  · exact (h.2.2 "title" (by decide)).trans rfl

/-! ## Many-to-many sync (`syncManyToManyRelations`, knex.service.ts:327-370) -/

/-- An element of a many-to-many payload array as the sync inspects it
(knex.service.ts:350-352): an object contributes its `id` property
(`none` = undefined/null, filtered out), a bare value contributes itself. -/
inductive M2MItem where
  | objItem (idv : Option Int)
  | bareItem (v : Int)
  deriving DecidableEq, Repr

/-- `newIds`: `items.map(item => typeof item === 'object' ? item.id : item)
.filter(id => id != null)` (knex.service.ts:349-353). -/
def extractIds (items : List M2MItem) : List Int :=
  items.filterMap fun
    | .objItem (some i) => some i
    | .objItem none => none
    | .bareItem v => some v

/-- The delete-then-reinsert pair of `syncManyToManyRelations`
(knex.service.ts:355-368) on one junction table, represented as the list of
its (sourceColumn, targetColumn) rows: delete every row whose source column
equals the owner id, then insert one `(ownerId, targetId)` row per new id. -/
def syncM2M (ownerId : Int) (items : List M2MItem) (db : List (Int × Int)) :
    List (Int × Int) :=
  let newIds := extractIds items
  let cleared := db.filter fun row => row.1 != ownerId
  cleared ++ newIds.map fun t => (ownerId, t)

theorem cleared_filter_eq_nil (K : Int) (db : List (Int × Int)) :
    (db.filter fun row => row.1 != K).filter (fun row => row.1 == K) = [] := by
  induction db with
  | nil => rfl
  | cons a t ih => by_cases h : a.1 = K <;> simp [List.filter_cons, h, ih]

theorem cleared_filter_idem (K : Int) (db : List (Int × Int)) :
    ((db.filter fun row => row.1 != K).filter fun row => row.1 != K) =
      db.filter fun row => row.1 != K := by
  induction db with
  | nil => rfl
  | cons a t ih => by_cases h : a.1 = K <;> simp [List.filter_cons, h, ih]

theorem inserted_filter_self (K : Int) (ids : List Int) :
    ((ids.map fun t => (K, t)).filter fun row => row.1 == K) =
      ids.map fun t => (K, t) := by
  induction ids with
  | nil => rfl
  | cons i t ih => simp [List.filter_cons, ih]

theorem inserted_filter_ne (K : Int) (ids : List Int) :
    ((ids.map fun t => (K, t)).filter fun row => row.1 != K) = [] := by
  induction ids with
  | nil => rfl
  | cons i t ih => simp [List.filter_cons, ih]

theorem cleared_count_zero (K t : Int) (db : List (Int × Int)) :
    (db.filter fun row => row.1 != K).count (K, t) = 0 := by
  induction db with
  | nil => rfl
  | cons a rest ih =>
    by_cases h : a.1 = K
    · simp [List.filter_cons, h, ih]
    · have hne : a ≠ (K, t) := fun he => h (by rw [he])
      simp [List.filter_cons, h, List.count_cons, ih, hne]

theorem inserted_count (K t : Int) (ids : List Int) :
    ((ids.map fun s => (K, s)).count (K, t)) = ids.count t := by
  induction ids with
  | nil => rfl
  | cons i rest ih =>
    by_cases h : i = t
    · simp [List.count_cons, ih, h]
    · have hne : (K, i) ≠ (K, t) := fun he => h (congrArg Prod.snd he)
      simp [List.count_cons, ih, h, hne]

/-- C4: the many-to-many sync is a full replace and idempotent: after one
run the junction rows for owner `K` are exactly the extracted id list (so
the update to `{2,3}` leaves exactly the rows for `{2,3}`), running the sync
twice equals running it once, and when the supplied id set has no
duplicates the junction holds exactly one `(K, t)` row for each `t` in the
set and none otherwise. -/
theorem syncManyToMany_replace_idempotent (K : Int) (items : List M2MItem)
    (db : List (Int × Int)) :
    ((syncM2M K items db).filter (fun row => row.1 == K) =
      (extractIds items).map fun t => (K, t)) ∧
    (syncM2M K items (syncM2M K items db) = syncM2M K items db) ∧
    ((extractIds items).Nodup → ∀ t : Int,
      (syncM2M K items db).count (K, t) =
        if t ∈ extractIds items then 1 else 0) := by
  refine ⟨?_, ?_, ?_⟩
  · simp only [syncM2M, List.filter_append]
    rw [cleared_filter_eq_nil, inserted_filter_self, List.nil_append]
  · simp only [syncM2M, List.filter_append]
    rw [cleared_filter_idem, inserted_filter_ne, List.append_nil]
  · intro hnd t
    simp only [syncM2M, List.count_append]
    rw [cleared_count_zero, inserted_count, Nat.zero_add]
    by_cases h : t ∈ extractIds items
    · rw [if_pos h]
      exact List.count_eq_one_of_mem hnd h
    · rw [if_neg h]
      exact List.count_eq_zero_of_not_mem h

/-- Witness for C4 at Scenario B: owner 1's junction set `{1,2,3}` synced
twice with `{2,3}` becomes exactly the rows for `{2,3}`, with one row each. -/
theorem syncManyToMany_replace_idempotent_witness :
    (extractIds [.objItem (some 2), .objItem (some 3)]).Nodup ∧
    syncM2M 1 [.objItem (some 2), .objItem (some 3)] [(1, 1), (1, 2), (1, 3), (2, 9)] =
      [(2, 9), (1, 2), (1, 3)] ∧
    syncM2M 1 [.objItem (some 2), .objItem (some 3)]
      (syncM2M 1 [.objItem (some 2), .objItem (some 3)] [(1, 1), (1, 2), (1, 3), (2, 9)]) =
      [(2, 9), (1, 2), (1, 3)] ∧
    (syncM2M 1 [.objItem (some 2), .objItem (some 3)]
      [(1, 1), (1, 2), (1, 3), (2, 9)]).count (1, 2) = 1 := by
  have h := syncManyToMany_replace_idempotent 1
    [.objItem (some 2), .objItem (some 3)] [(1, 1), (1, 2), (1, 3), (2, 9)]
  refine ⟨by decide, by decide, ?_, ?_⟩
  · rw [h.2.1]; decide
  · have := h.2.2 (by decide) 2
    simpa using this

/-! ## Pagination and meta counts (`sqlExecutor` / `mongoExecutor`,
query-builder.service.ts:212-488 and 524-618) -/

/-- JS truthiness of an optional numeric request parameter:
absent, null or `0` is falsy. -/
def truthy : Option Nat → Bool
  | none => false
  | some n => n != 0

/-- The pagination conversion (query-builder.service.ts:290-298, identical
at 605-613): `if (options.page && options.limit)` sets
`offset = (page-1)*limit` and the limit; `else if (options.limit)` sets
only the limit; otherwise neither is set. -/
def toOffsetLimit (page lim : Option Nat) : Option Nat × Option Nat :=
  if truthy page && truthy lim then (some ((page.getD 0 - 1) * lim.getD 0), lim)
  else if truthy lim then (none, lim)
  else (none, none)

/-- Applying the converted offset and limit to the (already filtered and
sorted) result rows: `if (queryOptions.offset)` skips a falsy offset
(query-builder.service.ts:435-437), and the limit is applied only when
strictly positive — `limit=0 means no limit (fetch all)` (438-442; the
MongoDB cursor path at 880-887 is textually identical). -/
def applyOffsetLimit {α : Type} (rows : List α) (off lim : Option Nat) : List α :=
  let r1 := match off with
    | some o => if o ≠ 0 then rows.drop o else rows
    | none => rows
  match lim with
  | some l => if 0 < l then r1.take l else r1
  | none => r1

/-- The executor's row pipeline after filtering and sorting: pagination
conversion followed by offset/limit application. -/
def pagedRows {α : Type} (rows : List α) (page lim : Option Nat) : List α :=
  let ol := toOffsetLimit page lim
  applyOffsetLimit rows ol.1 ol.2

/-- C5: for every select with `page ≥ 1` and `limit > 0` the executor
returns the contiguous slice starting at offset `(page-1)*limit` of the
sorted row list, hence at most `limit` rows in order; `limit = 0` (with or
without a page) and the absence of both parameters return all rows. -/
theorem pagination_spec {α : Type} (rows : List α) :
    (∀ page lim : Nat, 1 ≤ page → 1 ≤ lim →
      pagedRows rows (some page) (some lim) =
        (rows.drop ((page - 1) * lim)).take lim ∧
      (pagedRows rows (some page) (some lim)).length ≤ lim) ∧
    (∀ page : Option Nat, pagedRows rows page (some 0) = rows) ∧
    pagedRows rows none none = rows := by
  refine ⟨?_, ?_, rfl⟩
  · intro page lim hp hl
    have hpt : truthy (some page) = true := by
      simp [truthy]; omega
    have hlt : truthy (some lim) = true := by
      simp [truthy]; omega
    have heq : pagedRows rows (some page) (some lim) =
        (rows.drop ((page - 1) * lim)).take lim := by
      unfold pagedRows toOffsetLimit applyOffsetLimit
      rw [hpt, hlt]
      simp only [Bool.and_self, if_pos, Option.getD_some]
      by_cases ho : (page - 1) * lim = 0
      · simp [ho, hl, Nat.lt_of_lt_of_le Nat.zero_lt_one hl]
      · simp [ho, Nat.lt_of_lt_of_le Nat.zero_lt_one hl]
    refine ⟨heq, ?_⟩
    rw [heq]
    exact le_trans (List.length_take_le lim _) (le_refl lim)
  · intro page
    unfold pagedRows toOffsetLimit applyOffsetLimit
    have : truthy (some 0) = false := by simp [truthy]
    rw [this]
    simp

/-- Witness for C5: `page=2, limit=10` over 25 sorted rows returns rows
11-20 in order, and `limit=0` returns all 25. -/
theorem pagination_spec_witness :
    pagedRows (List.range 25) (some 2) (some 10) =
      [10, 11, 12, 13, 14, 15, 16, 17, 18, 19] ∧
    pagedRows (List.range 25) (some 3) (some 0) = List.range 25 := by
  have h := pagination_spec (List.range 25)
  exact ⟨((h.1 2 10 (by decide) (by decide)).1).trans (by decide),
    h.2.1 (some 3)⟩

/-- The optional `meta` object of the response envelope. -/
structure MetaCounts where
  totalCount : Option Nat := none
  filterCount : Option Nat := none
  deriving DecidableEq, Repr

/-- The unified response envelope `{data, meta?}`. -/
structure Envelope (α : Type) where
  data : List α
  meta : Option MetaCounts := none
  deriving DecidableEq, Repr

/-- Splitting a character list at commas (`String.prototype.split(',')`). -/
def splitCommaAux : List Char → List Char → List (List Char)
  | [], acc => [acc.reverse]
  | c :: rest, acc =>
    if c = ',' then acc.reverse :: splitCommaAux rest []
    else splitCommaAux rest (c :: acc)

/-- `trim` on a character list (whitespace modelled as the space char). -/
def trimChars (cs : List Char) : List Char :=
  ((cs.dropWhile fun c => c = ' ').reverse.dropWhile fun c => c = ' ').reverse

/-- `metaParts` (query-builder.service.ts:345-347):
`(options.meta || '').split(',').map(x => x.trim()).filter(Boolean)`. -/
def metaParts (meta : String) : List String :=
  ((splitCommaAux meta.toList []).map fun cs => String.mk (trimChars cs)).filter
    fun s => s != ""

/-- `sqlExecutor` (query-builder.service.ts:212-488) restricted to what the
meta/pagination claims observe, over the filtered row list: `totalCount`
runs a separate unfiltered count only when requested (452-457);
`filterCount` is a `COUNT(*) OVER()` window column added to the query only
when requested (363-365) — the window function counts the WHERE-matched
rows before OFFSET/LIMIT, so every returned row carries the full filtered
count — and is read off the first returned row, defaulting to 0 when the
page is empty (462-472); the `meta` object is attached only when at least
one meta part was requested (474-487). -/
def sqlExec {α : Type} (rows : List α) (p : α → Bool) (page lim : Option Nat)
    (meta : String) : Envelope α :=
  let parts := metaParts meta
  let needsFC := parts.contains "filterCount" || parts.contains "*"
  let needsTC := parts.contains "totalCount" || parts.contains "*"
  let filtered := rows.filter p
  let ol := toOffsetLimit page lim
  let paged := applyOffsetLimit filtered ol.1 ol.2
  let totalCount := if needsTC then rows.length else 0
  let filterCount := if needsFC && !paged.isEmpty then filtered.length else 0
  { data := paged,
    meta := if parts.isEmpty then none else
      some { totalCount := if needsTC then some totalCount else none,
             filterCount := if needsFC then some filterCount else none } }

/-- `mongoExecutor` (query-builder.service.ts:524-618): converts filter,
sort and pagination exactly like `sqlExecutor` and delegates to the
internal MongoDB execution, then returns `{ data: results }` (line 617) —
the `meta` option is never read and no count is computed. -/
def mongoExec {α : Type} (rows : List α) (p : α → Bool) (page lim : Option Nat)
    (_meta : String) : Envelope α :=
  let ol := toOffsetLimit page lim
  { data := applyOffsetLimit (rows.filter p) ol.1 ol.2, meta := none }

/-- C6 counterexample: the claim says both backends return the requested
counts in the envelope's meta object; on the document backend a select of
`page=1, limit=5, meta=filterCount` over 12 matching rows returns no meta
object at all (mongoExecutor returns only `{data}`), instead of
`meta.filterCount = 12`. -/
theorem mongoExecutor_meta_counterexample :
    (mongoExec (List.range 12) (fun _ => true) (some 1) (some 5) "filterCount").meta
      = none ∧
    (mongoExec (List.range 12) (fun _ => true) (some 1) (some 5) "filterCount").data.length
      = 5 := by
  constructor
  · rfl
  · decide

/-- C6 (amended): on the SQL backend, `totalCount` (unfiltered row count)
and `filterCount` (count of filter-matching rows, via the window column)
are computed and returned in the envelope's meta object only when the meta
option explicitly requests them — no meta object when nothing is requested,
each count present exactly when requested, and `filterCount` equal to the
full filtered count whenever the returned page is nonempty; the document
backend's executor returns only `{data}` with no meta object. -/
theorem sqlExecutor_meta_spec {α : Type} (rows : List α) (p : α → Bool)
    (page lim : Option Nat) :
    ((sqlExec rows p page lim "").meta = none) ∧
    ((sqlExec rows p page lim "totalCount").meta =
      some { totalCount := some rows.length, filterCount := none }) ∧
    ((sqlExec rows p page lim "filterCount").data ≠ [] →
      (sqlExec rows p page lim "filterCount").meta =
        some { totalCount := none, filterCount := some (rows.filter p).length }) ∧
    ((sqlExec rows p page lim "filterCount").data = pagedRows (rows.filter p) page lim) ∧
    ((mongoExec rows p page lim "filterCount").meta = none) := by
  have hm0 : metaParts "" = [] := by decide
  have hm1 : metaParts "totalCount" = ["totalCount"] := by decide
  have hm2 : metaParts "filterCount" = ["filterCount"] := by decide
  refine ⟨?_, ?_, ?_, rfl, rfl⟩
  · simp only [sqlExec, hm0]
    rfl
  · simp only [sqlExec, hm1]
    rfl
  · intro hne
    have hpaged : (applyOffsetLimit (rows.filter p)
        (toOffsetLimit page lim).1 (toOffsetLimit page lim).2).isEmpty = false := by
      rw [List.isEmpty_eq_false]
      exact hne
    simp only [sqlExec, hm2, hpaged]
    rfl

/-- Witness for C6 (Scenario D): on SQL, `page=1, limit=5,
meta=filterCount` over 12 matching rows yields `meta.filterCount = 12` and
`data.length = 5`, while an empty meta option yields no meta object. -/
theorem sqlExecutor_meta_spec_witness :
    (sqlExec (List.range 12) (fun _ => true) (some 1) (some 5) "filterCount").meta =
      some { totalCount := none, filterCount := some 12 } ∧
    (sqlExec (List.range 12) (fun _ => true) (some 1) (some 5) "filterCount").data.length
      = 5 ∧
    (sqlExec (List.range 12) (fun _ => true) (some 1) (some 5) "").meta = none := by
  have h := sqlExecutor_meta_spec (List.range 12) (fun _ => true) (some 1) (some 5)
  refine ⟨?_, by decide, h.1⟩
  have := h.2.2.1 (by decide)
  rw [this]
  decide

/-! ## Hook pipeline (`runHooks`, knex.service.ts:192-199 and
hook-registry.ts:59-66) -/

/-- A hook handler: receives the fixed leading argument (the table name)
and the current last argument, and produces the next value or throws. -/
def HookFn (ε α : Type) : Type := String → α → Except ε α

/-- `runHooks(event, ...args)`: `result` starts as the last argument; each
registered hook is awaited in order and its output replaces the last
argument for the next hook; the final result is returned. A rejection
(`Except.error`) propagates out of the loop at once. -/
def runHooks {ε α : Type} : List (HookFn ε α) → String → α → Except ε α
  | [], _, a => .ok a
  | h :: rest, tbl, a =>
    match h tbl a with
    | .ok b => runHooks rest tbl b
    | .error e => .error e

/-- The wrapped write of `wrapQueryBuilder` (knex.service.ts:213-217): the
before-chain's output is what gets persisted; a hook failure aborts before
the write happens. -/
def hookedWrite {ε α β : Type} (hooks : List (HookFn ε α)) (tbl : String)
    (a : α) (write : α → β) : Except ε β :=
  match runHooks hooks tbl a with
  | .ok d => .ok (write d)
  | .error e => .error e

/-- C7: the hook chain runs handlers strictly in registration order — for
any decomposition of the registry, the handler in the middle receives
exactly the output of the chain before it, its output feeds the chain after
it, and an error anywhere short-circuits past every later handler; the
chain's value is the final handler's output, and an erroring chain aborts
the enclosing write. -/
theorem runHooks_spec {ε α β : Type} :
    (∀ (pre post : List (HookFn ε α)) (h : HookFn ε α) (tbl : String) (a : α),
      runHooks (pre ++ h :: post) tbl a =
        match runHooks pre tbl a with
        | .ok b =>
          match h tbl b with
          | .ok c => runHooks post tbl c
          | .error e => .error e
        | .error e => .error e) ∧
    (∀ (hooks : List (HookFn ε α)) (tbl : String) (a : α) (e : ε)
      (write : α → β), runHooks hooks tbl a = .error e →
        hookedWrite hooks tbl a write = .error e) := by
  constructor
  · intro pre post h tbl a
    induction pre generalizing a with
    | nil =>
      cases hh : h tbl a <;> simp [runHooks, hh]
    | cons h0 rest ih =>
      simp only [List.cons_append, runHooks]
      cases hh : h0 tbl a with
      | ok b => simpa [runHooks, hh] using ih b
      | error e => simp [runHooks, hh]
  · intro hooks tbl a e write herr
    unfold hookedWrite
    rw [herr]

/-- The three-stage demo chain: increment, fail, multiply. -/
def demoHooks : List (HookFn String Nat) :=
  [fun _ n => .ok (n + 1), fun _ _ => .error "boom", fun _ n => .ok (n * 10)]

/-- Witness for C7: on the concrete chain [+1, throw, *10] the error of the
second handler propagates (the third is never applied: the result is the
error, not `.ok` of anything) and the enclosing write aborts. -/
theorem runHooks_spec_witness :
    runHooks demoHooks "post" 3 = .error "boom" ∧
    hookedWrite demoHooks "post" 3 (fun n => n) = .error "boom" := by
  refine ⟨rfl, ?_⟩
  exact (runHooks_spec (β := Nat)).2 demoHooks "post" 3 "boom" (fun n => n) rfl

/-! ## Cascade Context (hook-registry.ts:68-129) -/

/-- A record as an ordered key/value list, for the hooks that enumerate the
payload's keys (`for (const key in data)`). -/
def RecL : Type := List (String × Value)

/-- Is a payload value an array (`Array.isArray`)? -/
def isArrVal : Value → Bool
  | .arr _ => true
  | _ => false

/-- The capture step of the default `beforeInsert` hook
(hook-registry.ts:70-77): every array-valued key of the payload is copied
into `relationData`. -/
def captureRelationData (data : RecL) : RecL :=
  data.filter fun p => isArrVal p.2

/-- The shared `cascadeContextMap`, exactly as typed in the source:
`Map<string, any>` — keyed by table name. -/
def CascadeMap : Type := String → Option RecL

/-- `cascadeContextMap.set(tableName, relationData)` (hook-registry.ts:78):
the entry for the table name is replaced. -/
def cascadeSet (m : CascadeMap) (tbl : String) (v : RecL) : CascadeMap :=
  fun k => if k = tbl then some v else m k

/-- The capture half of the default beforeInsert hook for one logical
write: the captured payload is stored under the table name alone
(hook-registry.ts:69-78); the afterInsert hook later reads
`cascadeContextMap` at that same table name (hook-registry.ts:108-111). -/
def beforeInsertCapture (tbl : String) (data : RecL) (m : CascadeMap) : CascadeMap :=
  cascadeSet m tbl (captureRelationData data)

/-- C2: the code keys the Cascade Context by table name alone, so the
interleaving (write A's beforeInsert capture; write B's beforeInsert
capture; write A's afterInsert read — possible because every hook awaits
I/O between the two) makes write A's afterInsert consume write B's
captured payload: B's capture overwrote A's entry for the shared key
`"article"`. This refutes the claim that a per-call key makes one write's
capture never visible to, and never overwritten by, a concurrent write. -/
theorem cascadeContext_overwrite :
    beforeInsertCapture "article" [("tags", .arr [3])]
      (beforeInsertCapture "article" [("tags", .arr [1, 2]), ("title", .str "A")]
        (fun _ => none)) "article" = some [("tags", Value.arr [3])] ∧
    beforeInsertCapture "article" [("tags", .arr [1, 2]), ("title", .str "A")]
      (fun _ => none) "article" = some [("tags", Value.arr [1, 2])] ∧
    some [("tags", Value.arr [3])] ≠ some [("tags", Value.arr [1, 2])] := by
  refine ⟨rfl, rfl, ?_⟩
  intro h
  simp at h

/-! ## Atomicity of the many-to-many sync (knex.service.ts:327-370) -/

/-- A primitive backend operation, as issued against the junction table:
owner-row delete, row insert, and transaction boundaries (available through
`knexInstance.transaction`, knex.service.ts:573-575). -/
inductive DbOp where
  | delOwner (k : Int)
  | insRows (rows : List (Int × Int))
  | txBegin
  | txCommit
  deriving DecidableEq, Repr

/-- Effect of one data operation on the junction table state. -/
def applyOp (db : List (Int × Int)) : DbOp → List (Int × Int)
  | .delOwner k => db.filter fun row => row.1 != k
  | .insRows rows => db ++ rows
  | .txBegin => db
  | .txCommit => db

/-- The operation sequence `syncManyToManyRelations` issues for one
many-to-many relation (knex.service.ts:355-368): a delete of the owner's
junction rows on the root connection (`this.knexInstance`), then — when the
new id list is nonempty — an insert of the new rows on the root connection.
No transaction is opened around the pair, and the owner's own persistence
happens separately after the hook chain. -/
def syncM2MOps (ownerId : Int) (items : List M2MItem) : List DbOp :=
  let newIds := extractIds items
  [.delOwner ownerId] ++
    (if newIds.isEmpty then []
     else [.insRows (newIds.map fun t => (ownerId, t))])

/-- Walk an operation list maintaining the durably committed state and the
in-flight state: outside a transaction every data operation is committed as
soon as it completes; inside one, the committed state only advances at
`txCommit`. -/
def crashGo (committed current : List (Int × Int)) (inTxn : Bool) :
    List DbOp → List (Int × Int)
  | [] => committed
  | .txBegin :: rest => crashGo committed current true rest
  | .txCommit :: rest => crashGo current current false rest
  | op :: rest =>
    let s := applyOp current op
    if inTxn then crashGo committed s true rest else crashGo s s false rest

/-- The committed junction state visible after executing the first `n`
operations and then crashing. -/
def committedAfterCrash (db : List (Int × Int)) (ops : List DbOp) (n : Nat) :
    List (Int × Int) :=
  crashGo db db false (ops.take n)

/-- C3: the many-to-many sync runs its junction delete and reinsert as two
bare operations on the root connection with no transaction boundary, so a
failure between them leaves committed, visible half-state. Evaluated at
owner 1 with prior junction set {1,2,3} and new set {2,3}: the emitted
operations contain no begin/commit; crashing after the delete leaves owner
1 with no junction rows at all (neither the old set nor the new one), and
that state is durably committed. -/
theorem syncM2M_crash_half_state :
    syncM2MOps 1 [.objItem (some 2), .objItem (some 3)] =
      [.delOwner 1, .insRows [(1, 2), (1, 3)]] ∧
    (∀ op ∈ syncM2MOps 1 [.objItem (some 2), .objItem (some 3)],
      op ≠ .txBegin ∧ op ≠ .txCommit) ∧
    committedAfterCrash [(1, 1), (1, 2), (1, 3), (2, 9)]
      (syncM2MOps 1 [.objItem (some 2), .objItem (some 3)]) 1 = [(2, 9)] ∧
    committedAfterCrash [(1, 1), (1, 2), (1, 3), (2, 9)]
      (syncM2MOps 1 [.objItem (some 2), .objItem (some 3)]) 2 =
      [(2, 9), (1, 2), (1, 3)] := by
  decide

/-! ## Field expansion (`expandFieldsMongo`,
query-builder.service.ts:1233-1340) -/

/-- A relation `$lookup` entry produced by `expandFieldsMongo`. -/
structure MongoRelEntry where
  propertyName : String
  targetTable : String
  localField : String
  foreignField : String
  isMany : Bool
  nestedFields : List String
  deriving DecidableEq, Repr

/-- Break a field path at its first `.` (`field.split('.')` with
`parts[0]` and `parts.slice(1).join('.')`): returns the first segment and,
when a dot is present, the rest. -/
def breakAtDot : List Char → List Char × Option (List Char)
  | [] => ([], none)
  | c :: rest =>
    if c = '.' then ([], some rest)
    else
      let p := breakAtDot rest
      (c :: p.1, p.2)

/-- Insertion-ordered multimap update mirroring the
`fieldsByRelation` Map (query-builder.service.ts:1259-1278): existing keys
get the field appended, new keys are appended at the end. -/
def groupAdd (m : List (String × List String)) (k f : String) :
    List (String × List String) :=
  if m.any fun p => p.1 == k then
    m.map fun p => if p.1 == k then (p.1, p.2 ++ [f]) else p
  else m ++ [(k, [f])]

/-- Grouping the requested fields by first segment
(query-builder.service.ts:1261-1279): `*` and dot-free fields go under the
root key `""`; a dotted path goes under its first segment with the
remaining path as the entry. -/
def groupFields (fields : List String) : List (String × List String) :=
  fields.foldl
    (fun m f =>
      if f = "*" || !(f.toList.contains '.') then groupAdd m "" f
      else
        let p := breakAtDot f.toList
        groupAdd m (String.mk p.1) (String.mk (p.2.getD [])))
    []

/-- `if (!scalarFields.includes(field)) scalarFields.push(field)`. -/
def addUnique (l : List String) (s : String) : List String :=
  if l.contains s then l else l ++ [s]

/-- One iteration of the root-field loop
(query-builder.service.ts:1285-1312): `*` adds every declared scalar
column (deduplicated) and registers every declared relation not already
requested with the identifier-only projection `['id']`; any other root
field is added as a scalar. -/
def processRootStep (cols : List ColumnMeta) (rels : List RelationMeta)
    (st : List String × List (String × List String)) (f : String) :
    List String × List (String × List String) :=
  if f = "*" then
    (cols.foldl (fun sc c => addUnique sc c.name) st.1,
     rels.foldl
       (fun mm rel =>
         if mm.any fun p => p.1 == rel.propertyName then mm
         else mm ++ [(rel.propertyName, ["id"])])
       st.2)
  else (addUnique st.1 f, st.2)

/-- The relation-entry loop (query-builder.service.ts:1315-1337): skip the
root key, warn-and-skip unknown relation names, and emit a lookup entry
(`localField` = the property name, `foreignField` = `_id`, cardinality from
the relation type) carrying the nested field list. -/
def buildRelEntries (rels : List RelationMeta) (m : List (String × List String)) :
    List MongoRelEntry :=
  m.foldl
    (fun acc kv =>
      if kv.1 = "" then acc
      else
        match rels.find? fun rl => rl.propertyName == kv.1 with
        | none => acc
        | some rel =>
          acc ++ [{ propertyName := kv.1, targetTable := rel.targetTableName,
                    localField := kv.1, foreignField := "_id",
                    isMany := isToMany rel.rtype, nestedFields := kv.2 }])
    []

/-- `expandFieldsMongo(tableName, fields)`
(query-builder.service.ts:1233-1340): group the paths, process the root
fields, then build the relation lookup entries. -/
def expandFieldsMongo (meta : TableMeta) (fields : List String) :
    List String × List MongoRelEntry :=
  let m := groupFields fields
  let rootFields := ((m.find? fun p => p.1 == "").map Prod.snd).getD []
  let st := rootFields.foldl (processRootStep meta.columns meta.relations) ([], m)
  (st.1, buildRelEntries meta.relations st.2)

/-- The lookup entry the `*` expansion produces for one declared relation. -/
def starEntry (rel : RelationMeta) : MongoRelEntry :=
  { propertyName := rel.propertyName, targetTable := rel.targetTableName,
    localField := rel.propertyName, foreignField := "_id",
    isMany := isToMany rel.rtype, nestedFields := ["id"] }

theorem addUnique_foldl (l : List ColumnMeta) (acc : List String)
    (h : ∀ c ∈ l, c.name ∉ acc) (hnd : (l.map (·.name)).Nodup) :
    l.foldl (fun sc c => addUnique sc c.name) acc = acc ++ l.map (·.name) := by
  induction l generalizing acc with
  | nil => simp
  | cons c rest ih =>
    have hc : c.name ∉ acc := h c (List.mem_cons_self c rest)
    have hstep : addUnique acc c.name = acc ++ [c.name] := by
      simp [addUnique, hc]
    rw [List.map_cons, List.nodup_cons] at hnd
    have hmem : ∀ c' ∈ rest, c'.name ∉ acc ++ [c.name] := by
      intro c' hm
      simp only [List.mem_append, List.mem_singleton]
      rintro (ha | he)
      · exact h c' (List.mem_cons_of_mem c hm) ha
      · exact hnd.1 (he ▸ List.mem_map_of_mem (·.name) hm)
    calc (c :: rest).foldl (fun sc x => addUnique sc x.name) acc
        = rest.foldl (fun sc x => addUnique sc x.name) (addUnique acc c.name) := rfl
      _ = acc ++ [c.name] ++ rest.map (·.name) := by rw [hstep, ih _ hmem hnd.2]
      _ = acc ++ (c :: rest).map (·.name) := by simp

theorem relRegister_foldl (rels : List RelationMeta)
    (mm : List (String × List String))
    (h : ∀ rel ∈ rels, rel.propertyName ∉ mm.map Prod.fst)
    (hnd : (rels.map (·.propertyName)).Nodup) :
    rels.foldl
      (fun mm rel =>
        if mm.any fun p => p.1 == rel.propertyName then mm
        else mm ++ [(rel.propertyName, ["id"])])
      mm = mm ++ rels.map fun rel => (rel.propertyName, ["id"]) := by
  induction rels generalizing mm with
  | nil => simp
  | cons rel rest ih =>
    have hany : (mm.any fun p => p.1 == rel.propertyName) = false := by
      rw [List.any_eq_false]
      intro p hp
      simp only [beq_iff_eq]
      intro he
      exact h rel (List.mem_cons_self rel rest)
        (he ▸ List.mem_map_of_mem Prod.fst hp)
    rw [List.map_cons, List.nodup_cons] at hnd
    have hmem : ∀ rel' ∈ rest,
        rel'.propertyName ∉ (mm ++ [(rel.propertyName, ["id"])]).map Prod.fst := by
      intro rel' hm
      simp only [List.map_append, List.mem_append, List.map_cons, List.map_nil,
        List.mem_singleton]
      rintro (ha | he)
      · exact h rel' (List.mem_cons_of_mem rel hm) ha
      · exact hnd.1 (he ▸ List.mem_map_of_mem (·.propertyName) hm)
    calc (rel :: rest).foldl _ mm
        = rest.foldl _ (mm ++ [(rel.propertyName, ["id"])]) := by
          simp only [List.foldl_cons, hany, Bool.false_eq_true, if_neg,
            not_false_eq_true]
      _ = mm ++ [(rel.propertyName, ["id"])] ++
            rest.map fun r => (r.propertyName, ["id"]) := ih _ hmem hnd.2
      _ = mm ++ (rel :: rest).map fun r => (r.propertyName, ["id"]) := by simp

theorem find_self (rels : List RelationMeta) (rel : RelationMeta)
    (hmem : rel ∈ rels) (hnd : (rels.map (·.propertyName)).Nodup) :
    (rels.find? fun rl => rl.propertyName == rel.propertyName) = some rel := by
  induction rels with
  | nil => cases hmem
  | cons r0 rest ih =>
    rw [List.map_cons, List.nodup_cons] at hnd
    rcases List.mem_cons.mp hmem with he | hm
    · subst he
      simp [List.find?]
    · have hne : r0.propertyName ≠ rel.propertyName := by
        intro he
        exact hnd.1 (he ▸ List.mem_map_of_mem (·.propertyName) hm)
      have : (r0.propertyName == rel.propertyName) = false := by
        simp [hne]
      simp [List.find?, this, ih hm hnd.2]

theorem buildRelEntries_map (rels : List RelationMeta) (sub : List RelationMeta)
    (acc : List MongoRelEntry)
    (hfind : ∀ rel ∈ sub,
      (rels.find? fun rl => rl.propertyName == rel.propertyName) = some rel)
    (hne : ∀ rel ∈ sub, rel.propertyName ≠ "") :
    (sub.map fun rel => (rel.propertyName, ["id"])).foldl
      (fun acc kv =>
        if kv.1 = "" then acc
        else
          match rels.find? fun rl => rl.propertyName == kv.1 with
          | none => acc
          | some rel =>
            acc ++ [{ propertyName := kv.1, targetTable := rel.targetTableName,
                      localField := kv.1, foreignField := "_id",
                      isMany := isToMany rel.rtype, nestedFields := kv.2 }])
      acc = acc ++ sub.map starEntry := by
  induction sub generalizing acc with
  | nil => simp
  | cons rel rest ih =>
    have h0 := hfind rel (List.mem_cons_self rel rest)
    have h1 := hne rel (List.mem_cons_self rel rest)
    calc ((rel :: rest).map fun r => (r.propertyName, ["id"])).foldl _ acc
        = (rest.map fun r => (r.propertyName, ["id"])).foldl _
            (acc ++ [starEntry rel]) := by
          simp only [List.map_cons, List.foldl_cons, if_neg h1, h0, starEntry]
      _ = acc ++ [starEntry rel] ++ rest.map starEntry :=
          ih _ (fun r hm => hfind r (List.mem_cons_of_mem rel hm))
            (fun r hm => hne r (List.mem_cons_of_mem rel hm))
      _ = acc ++ (rel :: rest).map starEntry := by simp

/-- C8: expanding the field list `["*"]` on a table whose metadata declares
N scalar columns and M relations yields exactly the N declared scalar
fields and exactly M relation entries, each an identifier-only projection
(`nestedFields = ["id"]`, so each requests the identifier field of its
related table). -/
theorem expandFieldsMongo_star_spec (meta : TableMeta)
    (hc : (meta.columns.map (·.name)).Nodup)
    (hr : (meta.relations.map (·.propertyName)).Nodup)
    (hne : ∀ rel ∈ meta.relations, rel.propertyName ≠ "") :
    (expandFieldsMongo meta ["*"]).1 = meta.columns.map (·.name) ∧
    (expandFieldsMongo meta ["*"]).2 = meta.relations.map starEntry ∧
    (expandFieldsMongo meta ["*"]).2.length = meta.relations.length ∧
    ∀ e ∈ (expandFieldsMongo meta ["*"]).2, "id" ∈ e.nestedFields := by
  have hgroup : groupFields ["*"] = [("", ["*"])] := rfl
  have hroot : (((groupFields ["*"]).find? fun p => p.1 == "").map Prod.snd).getD []
      = ["*"] := rfl
  have hstate : (["*"].foldl (processRootStep meta.columns meta.relations)
      ([], groupFields ["*"])) =
      (meta.columns.map (·.name),
       [("", ["*"])] ++ meta.relations.map fun rel => (rel.propertyName, ["id"])) := by
    show processRootStep meta.columns meta.relations ([], [("", ["*"])]) "*" = _
    unfold processRootStep
    rw [if_pos rfl]
    refine Prod.ext ?_ ?_
    · show meta.columns.foldl (fun sc c => addUnique sc c.name) [] = _
      rw [addUnique_foldl meta.columns [] (by simp) hc]
      simp
    · show meta.relations.foldl _ [("", ["*"])] = _
      rw [relRegister_foldl meta.relations [("", ["*"])] ?_ hr]
      intro rel hm
      simp only [List.map_cons, List.map_nil, List.mem_singleton]
      exact hne rel hm
  have hentries : (expandFieldsMongo meta ["*"]).2 = meta.relations.map starEntry := by
    show buildRelEntries meta.relations
        (["*"].foldl (processRootStep meta.columns meta.relations)
          ([], groupFields ["*"])).2 = _
    rw [hstate]
    show (("", ["*"]) ::
        meta.relations.map fun rel => (rel.propertyName, ["id"])).foldl _ [] = _
    rw [List.foldl_cons, if_pos rfl]
    exact (buildRelEntries_map meta.relations meta.relations []
      (fun rel hm => find_self meta.relations rel hm hr) hne).trans (by simp)
  refine ⟨?_, hentries, by rw [hentries]; simp, ?_⟩
  · show (["*"].foldl (processRootStep meta.columns meta.relations)
        ([], groupFields ["*"])).1 = _
    rw [hstate]
  · intro e he
    rw [hentries] at he
    obtain ⟨rel, _, hrel⟩ := List.mem_map.mp he
    rw [← hrel]
    simp [starEntry]

/-- The Scenario-A table metadata for `article`. -/
def articleTable : TableMeta :=
  { name := "article",
    columns := [{ name := "id" }, { name := "title" }],
    relations := articleRels }

/-- Witness for C8: on `article` (2 scalar columns, 2 relations) the `*`
expansion yields exactly the scalars `id, title` and two identifier-only
relation entries. -/
theorem expandFieldsMongo_star_spec_witness :
    (expandFieldsMongo articleTable ["*"]).1 = ["id", "title"] ∧
    (expandFieldsMongo articleTable ["*"]).2.length = 2 ∧
    ∀ e ∈ (expandFieldsMongo articleTable ["*"]).2, "id" ∈ e.nestedFields := by
  have h := expandFieldsMongo_star_spec articleTable (by decide) (by decide) (by decide)
  exact ⟨h.1.trans (by decide), h.2.2.1.trans (by decide), h.2.2.2⟩

/-! ## Filter operator translation (query-builder.service.ts:249-274,
duplicated at 560-589) -/

/-- `op.replace('_', ' ')`: JavaScript `String.prototype.replace` with a
string pattern replaces only the first occurrence. -/
def replaceFirstUnderscore : List Char → List Char
  | [] => []
  | c :: rest =>
    if c = '_' then ' ' :: rest else c :: replaceFirstUnderscore rest

/-- The explicitly mapped operator keys of the if-chain
(query-builder.service.ts:255-264). -/
def knownOpKeys : List String :=
  ["_eq", "_neq", "_in", "_not_in", "_gt", "_gte", "_lt", "_lte",
   "_contains", "_is_null"]

/-- The operator-key conversion (query-builder.service.ts:253-265): ten
known keys map to fixed internal operator strings; every other key falls
through to `op.replace('_', ' ')`. -/
def opConvert (op : String) : String :=
  if op = "_eq" then "="
  else if op = "_neq" then "!="
  else if op = "_in" then "in"
  else if op = "_not_in" then "not in"
  else if op = "_gt" then ">"
  else if op = "_gte" then ">="
  else if op = "_lt" then "<"
  else if op = "_lte" then "<="
  else if op = "_contains" then "like"
  else if op = "_is_null" then "is null"
  else String.mk (replaceFirstUnderscore op.toList)

/-- The operator strings the internal condition representation understands:
the cases of `applyWhereToKnex`'s switch (query-builder.service.ts:51-90). -/
def knownOperators : List String :=
  ["=", "!=", ">", "<", ">=", "<=", "like", "in", "not in",
   "is null", "is not null"]

/-- C9 counterexample: a filter entry with the unknown operator key
`_between` is not rejected — the translation produces the backend operator
string " between" (first underscore replaced by a space) and pushes the
condition; likewise `_starts_with` becomes " starts_with". Neither result
is an operator the internal representation understands, refuting the claim
that unknown operator keys are rejected explicitly rather than best-effort
transformed. -/
theorem operator_mangle_counterexample :
    opConvert "_between" = " between" ∧
    knownOperators.contains " between" = false ∧
    opConvert "_starts_with" = " starts_with" ∧
    knownOperators.contains " starts_with" = false := by
  refine ⟨rfl, by decide, rfl, by decide⟩

/-- C9 (amended): the operator-key translation is the fixed if-chain
mapping the ten known keys to internal operator strings; any key outside
that vocabulary is not rejected but transformed by replacing its first
underscore with a space and passed on as the operator. -/
theorem operator_translation_spec :
    opConvert "_eq" = "=" ∧ opConvert "_neq" = "!=" ∧
    opConvert "_in" = "in" ∧ opConvert "_not_in" = "not in" ∧
    opConvert "_gt" = ">" ∧ opConvert "_gte" = ">=" ∧
    opConvert "_lt" = "<" ∧ opConvert "_lte" = "<=" ∧
    opConvert "_contains" = "like" ∧ opConvert "_is_null" = "is null" ∧
    (∀ op : String, op ∉ knownOpKeys →
      opConvert op = String.mk (replaceFirstUnderscore op.toList)) := by
  refine ⟨rfl, rfl, rfl, rfl, rfl, rfl, rfl, rfl, rfl, rfl, ?_⟩
  intro op hop
  simp only [knownOpKeys, List.mem_cons, List.not_mem_nil, or_false, not_or] at hop
  obtain ⟨h1, h2, h3, h4, h5, h6, h7, h8, h9, h10⟩ := hop
  simp [opConvert, h1, h2, h3, h4, h5, h6, h7, h8, h9, h10]

/-- Witness for C9 (amended) at the unknown key `_between`. -/
theorem operator_translation_spec_witness :
    "_between" ∉ knownOpKeys ∧ opConvert "_between" = " between" := by
  refine ⟨by decide, ?_⟩
  exact (operator_translation_spec.2.2.2.2.2.2.2.2.2.2 "_between" (by decide)).trans rfl

/-! ## Insert timestamps and junction detection (hook-registry.ts:94-106,
knex.service.ts:165-180 and 628-660) -/

/-- `isJunctionTable(tableName)` (knex.service.ts:165-180): a table is a
junction table iff some table's metadata has a many-to-many relation whose
`junctionTableName` equals it. -/
def isJunctionTable (tables : List TableMeta) (tableName : String) : Bool :=
  tables.any fun t =>
    t.relations.any fun rel =>
      (match rel.rtype with
       | .manyToMany => true
       | _ => false) && rel.junctionTableName == some tableName

/-- Does the haystack start with the needle? -/
def startsWithChars : List Char → List Char → Bool
  | [], _ => true
  | _ :: _, [] => false
  | a :: as, b :: bs => a == b && startsWithChars as bs

/-- Does the haystack contain the needle as a contiguous run? -/
def containsChars (needle : List Char) : List Char → Bool
  | [] => startsWithChars needle []
  | c :: rest => startsWithChars needle (c :: rest) || containsChars needle rest

/-- `haystack.includes(needle)`. -/
def includesSub (hay needle : String) : Bool :=
  containsChars needle.toList hay.toList

/-- The junction-name heuristic of `insertWithCascade`
(knex.service.ts:631-635, repeated at 668-672): the name contains `_` and
one of the four hard-coded patterns. -/
def cascadeJunctionHeuristic (tableName : String) : Bool :=
  includesSub tableName "_" &&
    (includesSub tableName "_definition_" || includesSub tableName "_methods_" ||
     includesSub tableName "_routes_" || includesSub tableName "_permissions_")

/-- The six casing variants destructured away by the timestamp hooks. -/
def tsVariants : List String :=
  ["createdAt", "updatedAt", "created_at", "updated_at", "CreatedAt", "UpdatedAt"]

/-- The timestamp hook of the default `beforeInsert` chain
(hook-registry.ts:94-106, identical at knex.service.ts:117-129): a junction
table's payload passes through unchanged; otherwise the six timestamp
casing variants are destructured away and `createdAt`/`updatedAt` are both
set to the `CURRENT_TIMESTAMP` raw expression (`now`, modelled opaquely). -/
def timestampHook (isJunction : Bool) (now : Value) (r : Rec) : Rec :=
  if isJunction then r
  else fun k =>
    if k = "createdAt" ∨ k = "updatedAt" then some now
    else if tsVariants.contains k then none
    else r k

/-- The hook applied to a table: junction-ness decided by metadata lookup. -/
def hookTimestamps (tables : List TableMeta) (tableName : String) (now : Value)
    (r : Rec) : Rec :=
  timestampHook (isJunctionTable tables tableName) now r

/-- C10: through the default beforeInsert timestamp hook, a non-junction
table's payload gets `createdAt` and `updatedAt` set to CURRENT_TIMESTAMP,
every caller-supplied casing variant of the timestamps is discarded, and
every other field is unchanged; a junction table's payload is returned
unchanged (no timestamp fields added); and the two insert paths decide
junction-ness differently — on the metadata declaring junction
`article_tags`, the hook's metadata lookup says junction while
`insertWithCascade`'s name heuristic says non-junction. -/
theorem timestampHook_spec (tables : List TableMeta) (t : String) (now : Value)
    (r : Rec) :
    (isJunctionTable tables t = false →
      hookTimestamps tables t now r "createdAt" = some now ∧
      hookTimestamps tables t now r "updatedAt" = some now ∧
      (∀ k ∈ ["created_at", "updated_at", "CreatedAt", "UpdatedAt"],
        hookTimestamps tables t now r k = none) ∧
      (∀ k : String, k ∉ tsVariants → hookTimestamps tables t now r k = r k)) ∧
    (isJunctionTable tables t = true → hookTimestamps tables t now r = r) ∧
    (isJunctionTable [articleTable] "article_tags" = true ∧
     cascadeJunctionHeuristic "article_tags" = false) := by
  refine ⟨?_, ?_, by decide, by decide⟩
  · intro hj
    have hred : ∀ k : String, hookTimestamps tables t now r k =
        if k = "createdAt" ∨ k = "updatedAt" then some now
        else if tsVariants.contains k then none
        else r k := by
      intro k
      unfold hookTimestamps timestampHook
      rw [hj]
      simp
    refine ⟨by rw [hred]; simp, by rw [hred]; simp, ?_, ?_⟩
    · intro k hk
      simp only [List.mem_cons, List.not_mem_nil, or_false] at hk
      rcases hk with h | h | h | h
      all_goals subst h
      all_goals rw [hred]
      all_goals simp [tsVariants]
    · intro k hk
      simp only [tsVariants, List.mem_cons, List.not_mem_nil, or_false,
        not_or] at hk
      obtain ⟨h1, h2, h3, h4, h5, h6⟩ := hk
      have hc : tsVariants.contains k = false := by
        simp [tsVariants, h1, h2, h3, h4, h5, h6]
      have hfirst : ¬(k = "createdAt" ∨ k = "updatedAt") := not_or.mpr ⟨h1, h2⟩
      rw [hred, if_neg hfirst, hc]
      simp
  · intro hj
    unfold hookTimestamps timestampHook
    rw [hj]
    simp

/-- A payload carrying caller-supplied timestamps in two casings. -/
def staleRec : Rec := fun k =>
  if k = "title" then some (.str "Hello")
  else if k = "createdAt" then some (.str "2020-01-01")
  else if k = "created_at" then some (.str "2020-01-02")
  else none

/-- Witness for C10: on the `article` metadata (not a junction table) with
a payload carrying stale `createdAt`/`created_at`, the hook stamps both
timestamps with `now`, drops the stale variants, and keeps `title`. -/
theorem timestampHook_spec_witness :
    hookTimestamps [articleTable] "article" (.str "NOW")
      staleRec "createdAt" = some (.str "NOW") ∧
    hookTimestamps [articleTable] "article" (.str "NOW")
      staleRec "updatedAt" = some (.str "NOW") ∧
    hookTimestamps [articleTable] "article" (.str "NOW")
      staleRec "created_at" = none ∧
    hookTimestamps [articleTable] "article" (.str "NOW")
      staleRec "title" = some (.str "Hello") := by
  have h := timestampHook_spec [articleTable] "article" (.str "NOW") staleRec
    |>.1 (by decide)
  exact ⟨h.1, h.2.1, h.2.2.1 "created_at" (by decide),
    (h.2.2.2 "title" (by decide)).trans rfl⟩

end Enfyra
